import Mathlib

/-!
Verification of the course-recommender backend (`backend/recommender.py`,
`backend/app.py`) against its natural-language specification.

The Python code is shallowly embedded: strings are `List Char` / `String`,
`None` / pandas-`NaN` cells are `Option`, float64 arithmetic is modelled by
exact rationals `ℚ`, and the stateful singleton metaclass is explicit state
passing.  The embedding is restricted to the ASCII behaviour of Python's
`str.lower` / `\s` / `strip` (the regexes in the source only keep
`[a-z0-9 ]`, so every character where the ASCII and Unicode readings of
`lower`/whitespace differ is erased by the very next step on both readings).
-/

/-! ## Character classes used by `Recommender._clean_text` -/

/-- A character kept by the regex `[^a-z0-9 ]+` apart from the space:
lower-case ASCII letter or digit. -/
def isAlnum (c : Char) : Bool :=
  (decide (97 ≤ c.toNat) && decide (c.toNat ≤ 122)) ||
  (decide (48 ≤ c.toNat) && decide (c.toNat ≤ 57))

/-- A character kept verbatim by `re.sub(r"[^a-z0-9 ]+", " ", s)`. -/
def isKeep (c : Char) : Bool := isAlnum c || decide (c = ' ')

/-- ASCII whitespace, the characters matched by the regex `\s`. -/
def isWS (c : Char) : Bool :=
  decide (c.toNat = 32) || decide (c.toNat = 9) || decide (c.toNat = 10) ||
  decide (c.toNat = 13) || decide (c.toNat = 11) || decide (c.toNat = 12)

/-- `str.lower` on the ASCII range: map `A`-`Z` to `a`-`z`. -/
def pyLower (c : Char) : Char :=
  if 65 ≤ c.toNat ∧ c.toNat ≤ 90 then Char.ofNat (c.toNat + 32) else c

/-! ## The `_clean_text` pipeline, stage by stage

`s = re.sub(r"[^a-z0-9 ]+", " ", s)` replaces every maximal run of
non-kept characters by one space; the flag records whether the previous
character belonged to such a run. -/

def sub1Aux : Bool → List Char → List Char
  | _, [] => []
  | prevJunk, c :: cs =>
    if isKeep c then c :: sub1Aux false cs
    else if prevJunk then sub1Aux true cs
    else ' ' :: sub1Aux true cs

def sub1 (l : List Char) : List Char := sub1Aux false l

/-- `re.sub(r"\s+", " ", s)`: every maximal whitespace run becomes one
space; the flag records whether the previous character was whitespace. -/
def collapseAux : Bool → List Char → List Char
  | _, [] => []
  | prevWS, c :: cs =>
    if isWS c then
      if prevWS then collapseAux true cs else ' ' :: collapseAux true cs
    else c :: collapseAux false cs

def collapseWS (l : List Char) : List Char := collapseAux false l

/-- `str.strip()`: drop whitespace from both ends. -/
def stripWS (l : List Char) : List Char :=
  ((l.dropWhile isWS).reverse.dropWhile isWS).reverse

/-- The body of `Recommender._clean_text` on an actual string:
lower-case, squash non-`[a-z0-9 ]` runs, collapse whitespace, strip. -/
def cleanList (l : List Char) : List Char :=
  stripWS (collapseWS (sub1 (l.map pyLower)))

/-- `Recommender._clean_text`; `none` models a `None`/`NaN` argument
(`pd.isna`), `some s` an ordinary string. -/
def _clean_text : Option String → String
  | none => ""
  | some s => String.mk (cleanList s.data)

/-! ## Specification-side characterization

The spec describes the normalizer as: replace every maximal run of
characters outside `[a-z0-9 ]` by one space, collapse whitespace, trim.
Net effect: keep the maximal alphanumeric runs ("words") of the
lower-cased input and join them with single spaces.  `wordsOf` extracts
those runs and `joinSp` joins them. -/

def startsAl (l : List Char) : Bool :=
  match l with
  | [] => false
  | c :: _ => isAlnum c

def wordsOf : List Char → List (List Char)
  | [] => []
  | c :: cs =>
    if isAlnum c then
      if startsAl cs then
        match wordsOf cs with
        | [] => [[c]]
        | w :: ws => (c :: w) :: ws
      else [c] :: wordsOf cs
    else wordsOf cs

def joinSp : List (List Char) → List Char
  | [] => []
  | [w] => w
  | w :: x :: ws => w ++ ' ' :: joinSp (x :: ws)

/-- Intermediate machine: replace every maximal run of NON-alphanumeric
characters (spaces included) by one space.  This is what
`collapseWS ∘ sub1` amounts to. -/
def sep1Aux : Bool → List Char → List Char
  | _, [] => []
  | prevSep, c :: cs =>
    if isAlnum c then c :: sep1Aux false cs
    else if prevSep then sep1Aux true cs
    else ' ' :: sep1Aux true cs

/-- Whether `sep1Aux true` leaves a dangling trailing space: some
alphanumeric character occurs, and the final character is not
alphanumeric. -/
def tailSep : List Char → Bool
  | [] => false
  | c :: cs =>
    if isAlnum c then
      if cs.any isAlnum then tailSep cs else !cs.isEmpty
    else tailSep cs

/-! ## Lemmas about the character classes -/

theorem isWS_of_isAlnum {c : Char} (h : isAlnum c = true) : isWS c = false := by
  simp only [isAlnum, Bool.or_eq_true, Bool.and_eq_true, decide_eq_true_eq] at h
  simp only [isWS, Bool.or_eq_false_iff, decide_eq_false_iff_not]
  omega

theorem isKeep_of_isAlnum {c : Char} (h : isAlnum c = true) : isKeep c = true := by
  simp [isKeep, h]

theorem isKeep_of_junk {c : Char} (hA : isAlnum c = false) (hS : ¬ c = ' ') :
    isKeep c = false := by
  simp [isKeep, hA, hS]

theorem pyLower_fix {c : Char} (h : isAlnum c = true ∨ c = ' ') : pyLower c = c := by
  rcases h with h | h
  · simp only [isAlnum, Bool.or_eq_true, Bool.and_eq_true, decide_eq_true_eq] at h
    simp only [pyLower, ite_eq_right_iff]
    omega
  · subst h; decide

/-! ## `collapseWS ∘ sub1` is `sep1Aux false` -/

theorem collapse_sub1 (l : List Char) :
    collapseAux false (sub1Aux false l) = sep1Aux false l ∧
    collapseAux true (sub1Aux false l) = sep1Aux true l ∧
    collapseAux true (sub1Aux true l) = sep1Aux true l := by
  induction l with
  | nil => simp [sub1Aux, collapseAux, sep1Aux]
  | cons c cs ih =>
    obtain ⟨ih1, ih2, ih3⟩ := ih
    by_cases hA : isAlnum c = true
    · have hK := isKeep_of_isAlnum hA
      have hW := isWS_of_isAlnum hA
      simp [sub1Aux, collapseAux, sep1Aux, hK, hW, hA, ih1, ih2]
    · rw [Bool.not_eq_true] at hA
      by_cases hS : c = ' '
      · subst hS
        simp [sub1Aux, collapseAux, sep1Aux, ih2, show isKeep ' ' = true from rfl,
          show isWS ' ' = true from rfl, show isAlnum ' ' = false from rfl]
      · have hK := isKeep_of_junk hA hS
        simp [sub1Aux, collapseAux, sep1Aux, hK, hA, ih3,
          show isWS ' ' = true from rfl]

/-! ## Shape lemmas for `wordsOf` -/

theorem wordsOf_cons_shape {d : Char} (ds : List Char) (h : isAlnum d = true) :
    ∃ u vs, wordsOf (d :: ds) = (d :: u) :: vs := by
  by_cases hs : startsAl ds = true
  · cases hw : wordsOf ds with
    | nil => exact ⟨[], [], by simp [wordsOf, h, hs, hw]⟩
    | cons w ws => exact ⟨w, ws, by simp [wordsOf, h, hs, hw]⟩
  · exact ⟨[], wordsOf ds, by simp [wordsOf, h, hs]⟩

theorem wordsOf_eq_nil_iff (l : List Char) :
    wordsOf l = [] ↔ l.any isAlnum = false := by
  induction l with
  | nil => simp [wordsOf]
  | cons c cs ih =>
    by_cases hA : isAlnum c = true
    · obtain ⟨u, vs, hw⟩ := wordsOf_cons_shape cs hA
      simp [hw, hA]
    · rw [Bool.not_eq_true] at hA
      simp [wordsOf, hA, ih]

theorem sep1_true_eq_nil (l : List Char) (h : l.any isAlnum = false) :
    sep1Aux true l = [] := by
  induction l with
  | nil => rfl
  | cons c cs ih =>
    simp only [List.any_cons, Bool.or_eq_false_iff] at h
    simp [sep1Aux, h.1, ih h.2]

theorem tailSep_eq_false (l : List Char) (h : l.any isAlnum = false) :
    tailSep l = false := by
  induction l with
  | nil => rfl
  | cons c cs ih =>
    simp only [List.any_cons, Bool.or_eq_false_iff] at h
    simp [tailSep, h.1, ih h.2]

theorem wordsOf_cons_startsAl {c : Char} {cs : List Char} (hA : isAlnum c = true)
    (hs : startsAl cs = true) {w : List Char} {ws : List (List Char)}
    (hw : wordsOf cs = w :: ws) : wordsOf (c :: cs) = (c :: w) :: ws := by
  simp [wordsOf, hA, hs, hw]

theorem joinSp_cons_cons (c : Char) (w : List Char) (ws : List (List Char)) :
    joinSp ((c :: w) :: ws) = c :: joinSp (w :: ws) := by
  cases ws with
  | nil => simp [joinSp]
  | cons x xs => simp [joinSp]

/-- Core characterization: the run-squashing machine emits exactly the
alphanumeric words joined by single spaces, plus possibly one trailing
space. -/
theorem sep1_true_eq (l : List Char) :
    sep1Aux true l =
      joinSp (wordsOf l) ++ (if tailSep l then [' '] else []) := by
  induction l with
  | nil => simp [sep1Aux, wordsOf, tailSep, joinSp]
  | cons c cs ih =>
    by_cases hA : isAlnum c = true
    · cases cs with
      | nil => simp [sep1Aux, wordsOf, tailSep, joinSp, hA, startsAl]
      | cons d ds =>
        by_cases hd : isAlnum d = true
        · obtain ⟨u, vs, hw⟩ := wordsOf_cons_shape ds hd
          have hany : (d :: ds).any isAlnum = true := by simp [hd]
          have hwc : wordsOf (c :: d :: ds) = (c :: (d :: u)) :: vs :=
            wordsOf_cons_startsAl hA (by simp [startsAl, hd]) hw
          have hLHS : sep1Aux true (c :: d :: ds) = c :: sep1Aux true (d :: ds) := by
            simp [sep1Aux, hA, hd]
          have hT : tailSep (c :: d :: ds) = tailSep (d :: ds) := by
            simp [tailSep, hA, hany]
          rw [hLHS, ih, hw, hT, hwc, joinSp_cons_cons c (d :: u) vs,
            List.cons_append]
        · rw [Bool.not_eq_true] at hd
          have hsA : startsAl (d :: ds) = false := by simp [startsAl, hd]
          have hLHS : sep1Aux true (c :: d :: ds) = c :: ' ' :: sep1Aux true ds := by
            simp [sep1Aux, hA, hd]
          have hstep : sep1Aux true (d :: ds) = sep1Aux true ds := by
            simp [sep1Aux, hd]
          have hwc : wordsOf (c :: d :: ds) = [c] :: wordsOf (d :: ds) := by
            simp [wordsOf, hA, hsA]
          by_cases hds : (d :: ds).any isAlnum = true
          · obtain ⟨w, ws, hw⟩ :
                ∃ w ws, wordsOf (d :: ds) = w :: ws := by
              cases hw : wordsOf (d :: ds) with
              | nil =>
                rw [wordsOf_eq_nil_iff] at hw
                rw [hw] at hds; cases hds
              | cons w ws => exact ⟨w, ws, rfl⟩
            have hT : tailSep (c :: d :: ds) = tailSep (d :: ds) := by
              simp [tailSep, hA, hds]
            rw [hLHS, hstep.symm, ih, hwc, hw, hT]
            simp [joinSp]
          · rw [Bool.not_eq_true] at hds
            have hwnil : wordsOf (d :: ds) = [] := (wordsOf_eq_nil_iff _).mpr hds
            have hdsnil : sep1Aux true ds = [] := by
              have := sep1_true_eq_nil (d :: ds) hds
              rw [hstep] at this; exact this
            have hT : tailSep (c :: d :: ds) = true := by
              simp [tailSep, hA, hds]
            rw [hLHS, hdsnil, hwc, hwnil, hT]
            simp [joinSp]
    · rw [Bool.not_eq_true] at hA
      have h1 : sep1Aux true (c :: cs) = sep1Aux true cs := by simp [sep1Aux, hA]
      have h2 : wordsOf (c :: cs) = wordsOf cs := by simp [wordsOf, hA]
      have h3 : tailSep (c :: cs) = tailSep cs := by simp [tailSep, hA]
      rw [h1, h2, h3, ih]

/-! ## Stripping the boundary spaces -/

theorem dropWhile_sep1_true (l : List Char) :
    (sep1Aux true l).dropWhile isWS = sep1Aux true l := by
  induction l with
  | nil => rfl
  | cons c cs ih =>
    by_cases hA : isAlnum c = true
    · simp [sep1Aux, hA, List.dropWhile_cons, isWS_of_isAlnum hA]
    · rw [Bool.not_eq_true] at hA
      simp [sep1Aux, hA, ih]

theorem dropWhile_sep1_false (l : List Char) :
    (sep1Aux false l).dropWhile isWS = sep1Aux true l := by
  cases l with
  | nil => rfl
  | cons c cs =>
    by_cases hA : isAlnum c = true
    · simp [sep1Aux, hA, List.dropWhile_cons, isWS_of_isAlnum hA]
    · rw [Bool.not_eq_true] at hA
      simp [sep1Aux, hA, List.dropWhile_cons, show isWS ' ' = true from rfl,
        dropWhile_sep1_true]

theorem wordsOf_sound (l : List Char) :
    ∀ w ∈ wordsOf l, w ≠ [] ∧ ∀ c ∈ w, isAlnum c = true := by
  induction l with
  | nil => simp [wordsOf]
  | cons c cs ih =>
    by_cases hA : isAlnum c = true
    · by_cases hs : startsAl cs = true
      · cases hw : wordsOf cs with
        | nil =>
          intro w hwmem
          simp only [wordsOf, hA, if_true, hs, hw, List.mem_singleton] at hwmem
          subst hwmem
          exact ⟨by simp, by simp [hA]⟩
        | cons u us =>
          intro w hwmem
          rw [wordsOf_cons_startsAl hA hs hw] at hwmem
          rcases List.mem_cons.mp hwmem with h | h
          · subst h
            have hu := ih u (by rw [hw]; exact List.mem_cons_self _ _)
            refine ⟨by simp, ?_⟩
            intro x hx
            rcases List.mem_cons.mp hx with h | h
            · subst h; exact hA
            · exact hu.2 x h
          · exact ih w (by rw [hw]; exact List.mem_cons_of_mem _ h)
      · intro w hwmem
        simp only [wordsOf, hA, if_true, hs, if_false, Bool.false_eq_true,
          List.mem_cons] at hwmem
        rcases hwmem with h | h
        · subst h; exact ⟨by simp, by simp [hA]⟩
        · exact ih w h
    · rw [Bool.not_eq_true] at hA
      intro w hwmem
      simp only [wordsOf, hA, Bool.false_eq_true, if_false] at hwmem
      exact ih w hwmem

theorem joinSp_reverse_head (ws : List (List Char)) (hne : ws ≠ [])
    (h : ∀ w ∈ ws, w ≠ [] ∧ ∀ c ∈ w, isAlnum c = true) :
    ∃ c r, (joinSp ws).reverse = c :: r ∧ isWS c = false := by
  induction ws with
  | nil => exact absurd rfl hne
  | cons w ws ih =>
    cases ws with
    | nil =>
      obtain ⟨hwne, hal⟩ := h w (by simp)
      cases hr : w.reverse with
      | nil => exact absurd (by simpa using hr) hwne
      | cons c r =>
        refine ⟨c, r, by simp [joinSp, hr], ?_⟩
        have hc : c ∈ w := by
          have : c ∈ w.reverse := by rw [hr]; exact List.mem_cons_self _ _
          simpa using this
        exact isWS_of_isAlnum (hal c hc)
    | cons x xs =>
      obtain ⟨c, r, hrev, hc⟩ :=
        ih (by simp) (fun v hv => h v (List.mem_cons_of_mem _ hv))
      refine ⟨c, r ++ ' ' :: w.reverse, ?_, hc⟩
      show (joinSp (w :: x :: xs)).reverse = c :: (r ++ ' ' :: w.reverse)
      rw [joinSp, List.reverse_append, List.reverse_cons]
      rw [hrev]
      simp

theorem strip_sep1 (l : List Char) :
    stripWS (sep1Aux false l) = joinSp (wordsOf l) := by
  rw [stripWS, dropWhile_sep1_false, sep1_true_eq]
  by_cases hW : wordsOf l = []
  · have hany : l.any isAlnum = false := (wordsOf_eq_nil_iff l).mp hW
    simp [hW, tailSep_eq_false l hany, joinSp]
  · obtain ⟨c, r, hrev, hc⟩ := joinSp_reverse_head (wordsOf l) hW (wordsOf_sound l)
    by_cases hT : tailSep l = true
    · rw [hT, if_pos rfl, List.reverse_append, hrev]
      show (List.dropWhile isWS ([' '].reverse ++ c :: r)).reverse = joinSp (wordsOf l)
      rw [show ([' '] : List Char).reverse = [' '] from rfl]
      rw [List.cons_append, List.nil_append, List.dropWhile_cons]
      rw [show isWS ' ' = true from rfl]
      simp only [if_true]
      rw [List.dropWhile_cons, hc]
      simp only [Bool.false_eq_true, if_false]
      rw [← hrev, List.reverse_reverse]
    · rw [Bool.not_eq_true] at hT
      rw [hT]
      simp only [Bool.false_eq_true, if_false, List.append_nil]
      rw [hrev, List.dropWhile_cons, hc]
      simp only [Bool.false_eq_true, if_false]
      rw [← hrev, List.reverse_reverse]

/-- Shared characterization of the `_clean_text` body: the pipeline
"lower-case; squash `[^a-z0-9 ]+` runs to one space; collapse whitespace;
strip" computes the maximal alphanumeric runs of the lower-cased input,
joined by single spaces. -/
theorem cleanList_eq (l : List Char) :
    cleanList l = joinSp (wordsOf (l.map pyLower)) := by
  rw [cleanList, collapseWS, sub1, (collapse_sub1 (l.map pyLower)).1, strip_sep1]

/-! ## Lemmas for idempotence -/

theorem mem_joinSp (ws : List (List Char)) {x : Char} (hx : x ∈ joinSp ws) :
    (∃ w ∈ ws, x ∈ w) ∨ x = ' ' := by
  induction ws with
  | nil => simp [joinSp] at hx
  | cons w ws ih =>
    cases ws with
    | nil =>
      simp only [joinSp] at hx
      exact Or.inl ⟨w, by simp, hx⟩
    | cons v vs =>
      rw [joinSp] at hx
      rcases List.mem_append.mp hx with h | h
      · exact Or.inl ⟨w, by simp, h⟩
      · rcases List.mem_cons.mp h with h | h
        · exact Or.inr h
        · rcases ih h with ⟨u, hu, hxu⟩ | h
          · exact Or.inl ⟨u, List.mem_cons_of_mem _ hu, hxu⟩
          · exact Or.inr h

theorem map_pyLower_fix (l : List Char)
    (h : ∀ c ∈ l, isAlnum c = true ∨ c = ' ') : l.map pyLower = l := by
  induction l with
  | nil => rfl
  | cons c cs ih =>
    rw [List.map_cons, pyLower_fix (h c (by simp)),
      ih (fun d hd => h d (List.mem_cons_of_mem _ hd))]

theorem wordsOf_word_append (w l : List Char) (hne : w ≠ [])
    (hal : ∀ c ∈ w, isAlnum c = true) (hl : startsAl l = false) :
    wordsOf (w ++ l) = w :: wordsOf l := by
  induction w with
  | nil => exact absurd rfl hne
  | cons a w ih =>
    cases w with
    | nil =>
      have ha := hal a (by simp)
      simp only [List.cons_append, List.nil_append]
      simp [wordsOf, ha, hl]
    | cons b w' =>
      have ha := hal a (by simp)
      have hb := hal b (by simp)
      have ih' := ih (by simp) (fun c hc => hal c (List.mem_cons_of_mem _ hc))
      rw [List.cons_append]
      exact wordsOf_cons_startsAl ha
        (by rw [List.cons_append]; simp [startsAl, hb]) ih'

theorem wordsOf_joinSp (ws : List (List Char))
    (h : ∀ w ∈ ws, w ≠ [] ∧ ∀ c ∈ w, isAlnum c = true) :
    wordsOf (joinSp ws) = ws := by
  induction ws with
  | nil => simp [joinSp, wordsOf]
  | cons w ws ih =>
    cases ws with
    | nil =>
      obtain ⟨hne, hal⟩ := h w (by simp)
      have := wordsOf_word_append w [] hne hal (by simp [startsAl])
      simpa [joinSp, wordsOf] using this
    | cons v vs =>
      obtain ⟨hne, hal⟩ := h w (by simp)
      rw [joinSp, wordsOf_word_append w (' ' :: joinSp (v :: vs)) hne hal
        (by simp [startsAl, show isAlnum ' ' = false from rfl])]
      rw [show wordsOf (' ' :: joinSp (v :: vs)) = wordsOf (joinSp (v :: vs)) by
        simp only [wordsOf, show isAlnum ' ' = false from rfl, Bool.false_eq_true,
          if_false]]
      rw [ih (fun u hu => h u (List.mem_cons_of_mem _ hu))]

theorem cleanList_idem (l : List Char) : cleanList (cleanList l) = cleanList l := by
  rw [cleanList_eq l, cleanList_eq]
  have hs := wordsOf_sound (l.map pyLower)
  have hchars : ∀ c ∈ joinSp (wordsOf (l.map pyLower)),
      isAlnum c = true ∨ c = ' ' := by
    intro c hc
    rcases mem_joinSp _ hc with ⟨w, hw, hcw⟩ | h
    · exact Or.inl ((hs w hw).2 c hcw)
    · exact Or.inr h
  rw [map_pyLower_fix _ hchars, wordsOf_joinSp _ hs]

/-- **C1.** The text normalizer `_clean_text` maps a `None`/`NaN` input to the
empty string; any actual string is lower-cased, every maximal run of characters
outside `[a-z0-9 ]` is replaced by a single space, whitespace runs are collapsed
and the ends trimmed — equivalently, the result is exactly the maximal
alphanumeric runs of the lower-cased input joined by single spaces.  The
function is a pure function of its argument (it is a plain Lean `def`). -/
theorem clean_text_characterization :
    _clean_text none = "" ∧
    ∀ s : String,
      _clean_text (some s) = String.mk (joinSp (wordsOf (s.data.map pyLower))) :=
  ⟨rfl, fun s => congrArg String.mk (cleanList_eq s.data)⟩

/-- **C2.** Normalizing an already-normalized string is a no-op:
`_clean_text (_clean_text s) = _clean_text s` for every string `s`. -/
theorem clean_text_idempotent (s : String) :
    _clean_text (some (_clean_text (some s))) = _clean_text (some s) :=
  congrArg String.mk (cleanList_idem s.data)

/-! ## Data model of the recommender

Rational numbers stand for Python float64 values (exact arithmetic in
place of IEEE rounding).  An `Option` cell value models a possibly-`NaN`
pandas cell.  `PyVal` models the dynamically-typed values placed in the
result dictionaries by `Recommender.recommend`. -/

/-- A value stored in a result dict: Python `None`, a `float('nan')`,
a string, or a float. -/
inductive PyVal where
  | pyNone : PyVal
  | pyNaN : PyVal
  | pyStr : String → PyVal
  | pyFloat : ℚ → PyVal
deriving DecidableEq, Repr

/-- One catalog row of the loaded DataFrame, after `_load_data` added the
`__title__` column: the title string, and the (possibly `NaN`) cells of
the detected rating and url columns. -/
structure CatRow where
  title : String
  rating : Option ℚ
  url : Option String
deriving DecidableEq, Repr

/-- One entry of the list returned by `Recommender.recommend`. -/
structure RecResult where
  title : String
  score : ℚ
  rating : PyVal
  url : PyVal
deriving DecidableEq, Repr

/-- The `Recommender` instance after `_load_data`: the catalog rows
(`self.df`), the rows of `self.tfidf_matrix`, whether a url / rating
column was detected (`self.url_col` / `self.rating_col` being non-`None`),
and the projection `self.vectorizer.transform` of a cleaned query string
into the fixed vector space. -/
structure Recommender where
  rows : List CatRow
  docVecs : List (List ℚ)
  hasUrlCol : Bool
  hasRatingCol : Bool
  qproj : String → List ℚ

/-- Dot product of two vectors, `linear_kernel` on a pair of rows
(trailing entries of the longer vector pair with nothing and drop out,
matching equal-dimension matrices where they never occur). -/
def dotQ (u v : List ℚ) : ℚ := (List.zipWith (fun a b => a * b) u v).sum

/-- Squared L2 norm. -/
def normSq (u : List ℚ) : ℚ := dotQ u u

/-- Index/score pairs `(i, scores[i])`, i.e. `enumerate` starting at `n`. -/
def idxFrom {α : Type} (n : Nat) : List α → List (Nat × α)
  | [] => []
  | x :: xs => (n, x) :: idxFrom (n + 1) xs

/-- Insert into a list already sorted by descending second component. -/
def insertDesc (p : Nat × ℚ) : List (Nat × ℚ) → List (Nat × ℚ)
  | [] => [p]
  | q :: qs => if q.2 < p.2 then p :: q :: qs else q :: insertDesc p qs

/-- Sort by descending score.  This models the net effect of
`np.argpartition(-cos, range(min(top_n, n)))[:top_n]` followed by
`argsort(-cos[top_idx])`: the `min(top_n, n)` highest-scoring index/score
pairs in descending score order (tie order is implementation-defined in
the source; this model fixes one). -/
def sortDesc : List (Nat × ℚ) → List (Nat × ℚ)
  | [] => []
  | p :: ps => insertDesc p (sortDesc ps)

/-- The `rating` field of a result dict:
`float(row[rating_col]) if (rating_col and not pd.isna(row[rating_col])) else None`. -/
def lookupRating (R : Recommender) (row : CatRow) : PyVal :=
  if R.hasRatingCol then
    match row.rating with
    | some q => PyVal.pyFloat q
    | none => PyVal.pyNone
  else PyVal.pyNone

/-- The `url` field of a result dict: `row[url_col] if url_col else None`.
Note the absence of a `pd.isna` check: a `NaN` cell is passed through. -/
def lookupUrl (R : Recommender) (row : CatRow) : PyVal :=
  if R.hasUrlCol then
    match row.url with
    | some s => PyVal.pyStr s
    | none => PyVal.pyNaN
  else PyVal.pyNone

/-- `Recommender.recommend(query, top_n)`. -/
def recommend (R : Recommender) (query : Option String) (top_n : Int) : List RecResult :=
  let q := _clean_text query
  if q = "" then []
  else
    let qv := R.qproj q
    let cos := R.docVecs.map (fun d => dotQ qv d)
    if cos.length = 0 then []
    else
      let k := (max 1 top_n).toNat
      let sel := (sortDesc (idxFrom 0 cos)).take k
      sel.map (fun p =>
        let row := R.rows.getD p.1 ⟨"", none, none⟩
        { title := row.title
          score := p.2
          rating := lookupRating R row
          url := lookupUrl R row })

/-! ## Length, membership and sortedness of the top-K selection -/

theorem length_insertDesc (p : Nat × ℚ) (l : List (Nat × ℚ)) :
    (insertDesc p l).length = l.length + 1 := by
  induction l with
  | nil => rfl
  | cons q qs ih => by_cases h : q.2 < p.2 <;> simp [insertDesc, h, ih]

theorem length_sortDesc (l : List (Nat × ℚ)) : (sortDesc l).length = l.length := by
  induction l with
  | nil => rfl
  | cons p ps ih => simp [sortDesc, length_insertDesc, ih]

theorem length_idxFrom {α : Type} (n : Nat) (l : List α) :
    (idxFrom n l).length = l.length := by
  induction l generalizing n with
  | nil => rfl
  | cons x xs ih => simp [idxFrom, ih]

theorem mem_insertDesc {x p : Nat × ℚ} {l : List (Nat × ℚ)}
    (h : x ∈ insertDesc p l) : x = p ∨ x ∈ l := by
  induction l with
  | nil => simpa [insertDesc] using h
  | cons q qs ih =>
    by_cases hc : q.2 < p.2
    · simp only [insertDesc, if_pos hc, List.mem_cons] at h
      rcases h with h | h | h
      · exact Or.inl h
      · exact Or.inr (by simp [h])
      · exact Or.inr (List.mem_cons_of_mem _ h)
    · simp only [insertDesc, if_neg hc, List.mem_cons] at h
      rcases h with h | h
      · exact Or.inr (by simp [h])
      · rcases ih h with h | h
        · exact Or.inl h
        · exact Or.inr (List.mem_cons_of_mem _ h)

theorem mem_sortDesc {x : Nat × ℚ} {l : List (Nat × ℚ)}
    (h : x ∈ sortDesc l) : x ∈ l := by
  induction l with
  | nil => simpa [sortDesc] using h
  | cons p ps ih =>
    rcases mem_insertDesc (l := sortDesc ps) (by simpa [sortDesc] using h) with h' | h'
    · simp [h']
    · exact List.mem_cons_of_mem _ (ih h')

theorem snd_mem_idxFrom {α : Type} {x : Nat × α} {n : Nat} {l : List α}
    (h : x ∈ idxFrom n l) : x.2 ∈ l := by
  induction l generalizing n with
  | nil => simpa [idxFrom] using h
  | cons y ys ih =>
    simp only [idxFrom, List.mem_cons] at h
    rcases h with h | h
    · simp [h]
    · exact List.mem_cons_of_mem _ (ih h)

theorem pairwise_insertDesc {p : Nat × ℚ} {l : List (Nat × ℚ)}
    (h : l.Pairwise (fun a b => b.2 ≤ a.2)) :
    (insertDesc p l).Pairwise (fun a b => b.2 ≤ a.2) := by
  induction l with
  | nil => simp [insertDesc]
  | cons q qs ih =>
    rcases List.pairwise_cons.mp h with ⟨hq, hqs⟩
    by_cases hc : q.2 < p.2
    · rw [insertDesc, if_pos hc]
      refine List.pairwise_cons.mpr ⟨?_, h⟩
      intro x hx
      rcases List.mem_cons.mp hx with h' | h'
      · subst h'; exact le_of_lt hc
      · exact le_trans (hq x h') (le_of_lt hc)
    · rw [insertDesc, if_neg hc]
      refine List.pairwise_cons.mpr ⟨?_, ih hqs⟩
      intro x hx
      rcases mem_insertDesc hx with h' | h'
      · subst h'; exact le_of_not_lt hc
      · exact hq x h'

theorem pairwise_sortDesc (l : List (Nat × ℚ)) :
    (sortDesc l).Pairwise (fun a b => b.2 ≤ a.2) := by
  induction l with
  | nil => simp [sortDesc]
  | cons p ps ih => exact pairwise_insertDesc ih

/-! ## Bounding dot products of non-negative sub-unit vectors -/

theorem normSq_nonneg (u : List ℚ) : 0 ≤ normSq u := by
  rw [normSq, dotQ]
  induction u with
  | nil => simp
  | cons a u ih =>
    simp only [List.zipWith_cons_cons, List.sum_cons]
    have := mul_self_nonneg a
    linarith

theorem dot_nonneg (u v : List ℚ) (hu : ∀ x ∈ u, 0 ≤ x) (hv : ∀ x ∈ v, 0 ≤ x) :
    0 ≤ dotQ u v := by
  induction u generalizing v with
  | nil => simp [dotQ]
  | cons a u ih =>
    cases v with
    | nil => simp [dotQ]
    | cons b v =>
      rw [dotQ, List.zipWith_cons_cons, List.sum_cons]
      have h1 : (0:ℚ) ≤ a * b :=
        mul_nonneg (hu a (by simp)) (hv b (by simp))
      have h2 := ih v (fun x hx => hu x (List.mem_cons_of_mem _ hx))
        (fun x hx => hv x (List.mem_cons_of_mem _ hx))
      rw [dotQ] at h2
      linarith

/-- Pointwise AM-GM summed: `2⟨u,v⟩ ≤ ‖u‖² + ‖v‖²`. -/
theorem two_dot_le (u v : List ℚ) : 2 * dotQ u v ≤ normSq u + normSq v := by
  induction u generalizing v with
  | nil =>
    have h1 := normSq_nonneg ([] : List ℚ)
    have h2 := normSq_nonneg v
    simp [dotQ]
    linarith
  | cons a u ih =>
    cases v with
    | nil =>
      have h1 := normSq_nonneg (a :: u)
      have h2 := normSq_nonneg ([] : List ℚ)
      simp [dotQ]
      linarith
    | cons b v =>
      have hn1 : normSq (a :: u) = a * a + normSq u := by
        rw [normSq, normSq, dotQ, dotQ, List.zipWith_cons_cons, List.sum_cons]
      have hn2 : normSq (b :: v) = b * b + normSq v := by
        rw [normSq, normSq, dotQ, dotQ, List.zipWith_cons_cons, List.sum_cons]
      have hd : dotQ (a :: u) (b :: v) = a * b + dotQ u v := by
        rw [dotQ, dotQ, List.zipWith_cons_cons, List.sum_cons]
      have hab : 2 * (a * b) ≤ a * a + b * b := by nlinarith [sq_nonneg (a - b)]
      have := ih v
      rw [hn1, hn2, hd]
      linarith

/-- A concrete recommender instance used to instantiate the theorems
below: the three-row corpus of the spec's scenario, with unit-norm
document vectors and a unit-norm query projection. -/
def Rex : Recommender :=
  { rows := [⟨"Intro to Python Programming", some 4, some "u1"⟩,
             ⟨"Advanced Python Data Science", none, none⟩,
             ⟨"Cooking Italian Food", some 3, some "u3"⟩]
    docVecs := [[1, 0], [(3:ℚ)/5, (4:ℚ)/5], [0, 0]]
    hasUrlCol := true
    hasRatingCol := true
    qproj := fun _ => [(4:ℚ)/5, (3:ℚ)/5] }

/-- Concrete evaluation of `recommend` on `Rex`, reused by several
instantiations: the highest-scoring document is row 1. -/
theorem Rex_eval : recommend Rex (some "python") 1 =
    [{ title := "Advanced Python Data Science", score := (24:ℚ)/25,
       rating := PyVal.pyNone, url := PyVal.pyNaN }] := by
  have h1 : _clean_text (some "python") = "python" := by decide
  simp only [recommend, h1]
  rw [if_neg (by decide : ¬("python" : String) = "")]
  norm_num [Rex, sortDesc, insertDesc, idxFrom, dotQ, lookupRating, lookupUrl]

/-- **C3.** A query whose normalized form is empty — `None`/`NaN` input or
punctuation-only text — yields the empty result list for every `top_n`.
In the model `recommend` is a total function, so no error is possible. -/
theorem recommend_empty_query (R : Recommender) (query : Option String) (t : Int)
    (h : _clean_text query = "") : recommend R query t = [] := by
  simp [recommend, h]

theorem recommend_empty_query_witness :
    _clean_text (some "!!!???") = "" ∧ recommend Rex (some "!!!???") 7 = [] :=
  ⟨by decide, recommend_empty_query Rex (some "!!!???") 7 (by decide)⟩

/-- **C4.** For a query with non-empty normalized text and any integer
`top_n`, `recommend` clamps `top_n` to at least `1` and returns exactly
`min(clamped top_n, corpus_size)` results — in particular all items, with
no padding, when `top_n` exceeds the corpus size. -/
theorem recommend_length (R : Recommender) (s : String) (t : Int)
    (hq : _clean_text (some s) ≠ "")
    (hal : R.rows.length = R.docVecs.length) :
    (recommend R (some s) t).length = min (max 1 t).toNat R.rows.length := by
  simp only [recommend]
  rw [if_neg hq]
  by_cases h0 : R.docVecs.length = 0
  · simp [List.length_map, h0, hal]
  · rw [if_neg (by simpa [List.length_map] using h0)]
    simp [List.length_map, List.length_take, length_sortDesc, length_idxFrom, hal]

theorem recommend_length_witness :
    _clean_text (some "python") ≠ "" ∧
    Rex.rows.length = Rex.docVecs.length ∧
    (recommend Rex (some "python") 100).length = min (max 1 (100:Int)).toNat Rex.rows.length :=
  ⟨by decide, rfl, recommend_length Rex "python" 100 (by decide) rfl⟩

/-- **C5.** The result list of `recommend` is sorted by descending score:
any result is followed only by results of smaller-or-equal score. -/
theorem recommend_sorted (R : Recommender) (query : Option String) (t : Int) :
    (recommend R query t).Pairwise (fun a b => b.score ≤ a.score) := by
  simp only [recommend]
  by_cases h : _clean_text query = ""
  · simp [h]
  · rw [if_neg h]
    by_cases h0 : (R.docVecs.map (fun d => dotQ (R.qproj (_clean_text query)) d)).length = 0
    · rw [if_pos h0]; exact List.Pairwise.nil
    · rw [if_neg h0]
      exact List.Pairwise.map _ (fun a b hab => hab)
        (List.Pairwise.sublist (List.take_sublist _ _) (pairwise_sortDesc _))

/-- **C6.** Every returned score lies in `[0, 1]`: each score is the dot
product of the L2-normalized non-negative query vector with an
L2-normalized non-negative document row (the hypotheses state exactly the
normalization produced by the TF-IDF transform: entrywise non-negative
vectors of squared norm at most one, the zero vector included for
out-of-vocabulary queries). -/
theorem recommend_score_bounds (R : Recommender) (query : Option String) (t : Int)
    (hq : ∀ s : String, ∀ x ∈ R.qproj s, 0 ≤ x)
    (hqn : ∀ s : String, normSq (R.qproj s) ≤ 1)
    (hdocs : ∀ v ∈ R.docVecs, (∀ x ∈ v, 0 ≤ x) ∧ normSq v ≤ 1) :
    ∀ r ∈ recommend R query t, 0 ≤ r.score ∧ r.score ≤ 1 := by
  intro r hr
  simp only [recommend] at hr
  by_cases h : _clean_text query = ""
  · rw [if_pos h] at hr; cases hr
  · rw [if_neg h] at hr
    by_cases h0 : (R.docVecs.map (fun d => dotQ (R.qproj (_clean_text query)) d)).length = 0
    · rw [if_pos h0] at hr; cases hr
    · rw [if_neg h0] at hr
      rcases List.mem_map.mp hr with ⟨p, hp, rfl⟩
      have hp1 : p ∈ sortDesc (idxFrom 0
          (R.docVecs.map (fun d => dotQ (R.qproj (_clean_text query)) d))) :=
        List.take_subset _ _ hp
      have hp2 := snd_mem_idxFrom (mem_sortDesc hp1)
      rcases List.mem_map.mp hp2 with ⟨d, hd, hpd⟩
      have hnn : 0 ≤ p.2 := by
        rw [← hpd]
        exact dot_nonneg _ _ (hq _) (hdocs d hd).1
      have hle : p.2 ≤ 1 := by
        have h2 := two_dot_le (R.qproj (_clean_text query)) d
        have h3 := hqn (_clean_text query)
        have h4 := (hdocs d hd).2
        rw [← hpd]
        linarith
      exact ⟨hnn, hle⟩

/-- A two-entry vector with non-negative entries and squared norm at most
one satisfies the hypotheses of the score-bound theorem. -/
theorem pair_vec_ok {a b : ℚ} (ha : 0 ≤ a) (hb : 0 ≤ b) (h : a * a + b * b ≤ 1) :
    (∀ x ∈ [a, b], 0 ≤ x) ∧ normSq [a, b] ≤ 1 := by
  constructor
  · intro x hx
    simp only [List.mem_cons, List.not_mem_nil, or_false] at hx
    rcases hx with h' | h' <;> simp [h', ha, hb]
  · simp only [normSq, dotQ, List.zipWith_cons_cons, List.zipWith_nil,
      List.sum_cons, List.sum_nil]
    linarith

theorem recommend_score_bounds_witness :
    0 ≤ ((recommend Rex (some "python") 1).getD 0
      ⟨"", 0, PyVal.pyNone, PyVal.pyNone⟩).score ∧
    ((recommend Rex (some "python") 1).getD 0
      ⟨"", 0, PyVal.pyNone, PyVal.pyNone⟩).score ≤ 1 := by
  refine recommend_score_bounds Rex (some "python") 1 ?_ ?_ ?_ _ ?_
  · intro s x hx
    exact (pair_vec_ok (by norm_num) (by norm_num) (by norm_num)).1 x hx
  · intro s
    exact (pair_vec_ok (a := (4:ℚ)/5) (b := (3:ℚ)/5)
      (by norm_num) (by norm_num) (by norm_num)).2
  · intro v hv
    have hmem : v = [(1:ℚ), 0] ∨ v = [(3:ℚ)/5, (4:ℚ)/5] ∨ v = [(0:ℚ), (0:ℚ)] := by
      simpa [Rex] using hv
    rcases hmem with h | h | h <;> rw [h] <;>
      exact pair_vec_ok (by norm_num) (by norm_num) (by norm_num)
  · rw [Rex_eval]
    simp

/-! ## Corpus-load text construction (`Recommender._load_data`) -/

/-- `astype(str)` applied to a possibly-`NaN` cell: pandas renders a `NaN`
float as the literal string `"nan"`. -/
def pyStr : Option String → String
  | none => "nan"
  | some s => s

/-- The combined text `_load_data` builds for one row before cleaning:
`combined = df["__title__"].fillna("")` and, when a description column was
detected, `combined = combined + " " + df[desc_col].astype(str).fillna("")`.
Both `fillna("")` calls run after `astype(str)` and are therefore no-ops:
a missing cell has already become the string `"nan"`. -/
def combinedText (hasDesc : Bool) (title desc : Option String) : String :=
  if hasDesc then pyStr title ++ " " ++ pyStr desc else pyStr title

/-- The Cleaned Text of one row: `combined.map(self._clean_text)`. -/
def cleanedRow (hasDesc : Bool) (title desc : Option String) : String :=
  _clean_text (some (combinedText hasDesc title desc))

/-- **C7.** Evaluation at the failing input: for a row with title
`"Intro"`, a detected description column and a missing (`NaN`) description
value, the code produces the cleaned text `"intro nan"` — the `NaN` is
stringified to `"nan"` by `astype(str)` before the dead `fillna("")` —
whereas treating the missing description as the empty string (as the claim
states, and as the code's own `fillna("")` intends) would give `"intro"`.
Without a description column the claimed `normalize(title)` does hold. -/
theorem cleaned_row_nan_desc :
    cleanedRow true (some "Intro") none = "intro nan" ∧
    _clean_text (some ("Intro" ++ " " ++ "")) = "intro" ∧
    cleanedRow false (some "Intro") none = "intro" := by
  refine ⟨?_, ?_, ?_⟩ <;> decide

/-- **C8 counterexample.** On a catalog row whose url column is present
but whose url cell is missing (`NaN`), the returned `url` field is the
`NaN` value itself, not `None`: the source guards `rating` with
`pd.isna` but returns `row[url_col]` unguarded. -/
theorem recommend_url_nan_counterexample :
    (recommend Rex (some "python") 1).map RecResult.url = [PyVal.pyNaN] := by
  rw [Rex_eval]; rfl

/-- **C8 amended.** Every returned `rating` is a float or `None` (a `NaN`
rating cell resolves to `None`); the `url` field is `None` when no url
column was detected and otherwise the raw cell — the string when present,
but the `NaN` value (not `None`) when the cell is missing. -/
theorem recommend_field_types (R : Recommender) (query : Option String) (t : Int) :
    ∀ r ∈ recommend R query t,
      (r.rating = PyVal.pyNone ∨ ∃ x, r.rating = PyVal.pyFloat x) ∧
      (r.url = PyVal.pyNone ∨ (∃ s, r.url = PyVal.pyStr s) ∨ r.url = PyVal.pyNaN) ∧
      (R.hasUrlCol = false → r.url = PyVal.pyNone) := by
  intro r hr
  simp only [recommend] at hr
  by_cases h : _clean_text query = ""
  · rw [if_pos h] at hr; cases hr
  · rw [if_neg h] at hr
    by_cases h0 : (R.docVecs.map (fun d => dotQ (R.qproj (_clean_text query)) d)).length = 0
    · rw [if_pos h0] at hr; cases hr
    · rw [if_neg h0] at hr
      rcases List.mem_map.mp hr with ⟨p, hp, rfl⟩
      refine ⟨?_, ?_, ?_⟩
      · simp only [lookupRating]
        by_cases hrc : R.hasRatingCol = true
        · rw [if_pos hrc]
          cases (R.rows.getD p.1 ⟨"", none, none⟩).rating with
          | some x => exact Or.inr ⟨x, rfl⟩
          | none => exact Or.inl rfl
        · rw [if_neg hrc]; exact Or.inl rfl
      · simp only [lookupUrl]
        by_cases huc : R.hasUrlCol = true
        · rw [if_pos huc]
          cases (R.rows.getD p.1 ⟨"", none, none⟩).url with
          | some v => exact Or.inr (Or.inl ⟨v, rfl⟩)
          | none => exact Or.inr (Or.inr rfl)
        · rw [if_neg huc]; exact Or.inl rfl
      · intro hfalse
        simp [lookupUrl, hfalse]

theorem recommend_field_types_witness :
    ((((recommend Rex (some "python") 1).getD 0
        ⟨"", 0, PyVal.pyNone, PyVal.pyNone⟩).rating = PyVal.pyNone ∨
      ∃ x, (((recommend Rex (some "python") 1).getD 0
        ⟨"", 0, PyVal.pyNone, PyVal.pyNone⟩)).rating = PyVal.pyFloat x) ∧
     (((recommend Rex (some "python") 1).getD 0
        ⟨"", 0, PyVal.pyNone, PyVal.pyNone⟩).url = PyVal.pyNone ∨
      (∃ s, (((recommend Rex (some "python") 1).getD 0
        ⟨"", 0, PyVal.pyNone, PyVal.pyNone⟩)).url = PyVal.pyStr s) ∨
      ((recommend Rex (some "python") 1).getD 0
        ⟨"", 0, PyVal.pyNone, PyVal.pyNone⟩).url = PyVal.pyNaN) ∧
     (Rex.hasUrlCol = false →
      ((recommend Rex (some "python") 1).getD 0
        ⟨"", 0, PyVal.pyNone, PyVal.pyNone⟩).url = PyVal.pyNone)) := by
  refine recommend_field_types Rex (some "python") 1 _ ?_
  rw [Rex_eval]; simp

/-! ## The `/recommend` HTTP route (`backend/app.py`) -/

/-- Python truthiness of an optional string: `None` and `""` are falsy. -/
def pyTruthy : Option String → Bool
  | none => false
  | some s => !(s == "")

/-- Python `or` on two optional query parameters. -/
def pyOrS (a b : Option String) : Option String := if pyTruthy a then a else b

inductive RouteResp where
  | ok : String → List RecResult → RouteResp
  | clientError : String → RouteResp
deriving DecidableEq, Repr

/-- `int(request.args.get("top_n", 4))`, falling back to `4` when the
parameter is absent or unparsable. -/
def parseTopN : Option String → Int
  | none => 4
  | some s => (s.toInt?).getD 4

/-- The `/recommend` route body: take the first truthy parameter among
`q`, `name`, `query`; if it is falsy (absent or empty) return the error
object, otherwise run the recommender and return a success payload. -/
def route (R : Recommender) (q name query top_n : Option String) : RouteResp :=
  let qv := pyOrS q (pyOrS name query)
  if pyTruthy qv then
    RouteResp.ok (qv.getD "") (recommend R (some (qv.getD "")) (parseTopN top_n))
  else RouteResp.clientError "missing query parameter `q` (or `name`/`query`)"

/-- **C9 counterexample.** A supplied-but-empty `q` parameter is falsy in
Python, so the route returns the error object even though the required
text argument was supplied — contradicting "error only when the text
argument is absent entirely". -/
theorem route_empty_param_counterexample :
    route Rex (some "") none none none =
      RouteResp.clientError "missing query parameter `q` (or `name`/`query`)" := rfl

theorem pyTruthy_pyOrS (a b : Option String) :
    pyTruthy (pyOrS a b) = (pyTruthy a || pyTruthy b) := by
  by_cases h : pyTruthy a = true
  · simp [pyOrS, h]
  · rw [Bool.not_eq_true] at h
    simp [pyOrS, h]

/-- **C9 amended.** The route returns the error object exactly when all
three text parameters are Python-falsy — absent or the empty string; any
supplied non-empty text (even one that normalizes to empty, such as
`"!!!"`) yields a success response. -/
theorem route_error_iff (R : Recommender) (q name query top_n : Option String) :
    (∃ m, route R q name query top_n = RouteResp.clientError m) ↔
      (pyTruthy q = false ∧ pyTruthy name = false ∧ pyTruthy query = false) := by
  rw [route]
  by_cases h : pyTruthy (pyOrS q (pyOrS name query)) = true
  · rw [if_pos h]
    simp only [pyTruthy_pyOrS, Bool.or_eq_true] at h
    constructor
    · intro ⟨m, hm⟩; cases hm
    · intro ⟨h1, h2, h3⟩
      rw [h1, h2, h3] at h
      simp at h
  · rw [Bool.not_eq_true] at h
    rw [h]
    simp only [Bool.false_eq_true, if_false]
    simp only [pyTruthy_pyOrS, Bool.or_eq_false_iff] at h
    constructor
    · intro _; exact ⟨h.1, h.2.1, h.2.2⟩
    · intro _; exact ⟨_, rfl⟩

/-! ## The singleton metaclass (`_SingletonMeta`, `create_recommender`) -/

/-- `_SingletonMeta.__call__` for a single class: return the cached
instance if there is one, otherwise run the constructor (`build`), cache
the result and return it.  The `Nat` component counts how many times the
constructor body has run. -/
def singletonCall {α : Type} (build : String → α) :
    Option α × Nat → String → α × (Option α × Nat)
  | (some inst, n), _ => (inst, (some inst, n))
  | (none, n), p => (build p, (some (build p), n + 1))

/-- `create_recommender`: the factory simply invokes the
singleton-guarded class constructor. -/
def create_recommender {α : Type} (build : String → α)
    (st : Option α × Nat) (p : String) : α × (Option α × Nat) :=
  singletonCall build st p

/-- A sequence of `Recommender(...)` / `create_recommender(...)` calls
threaded through the metaclass cache: the list of returned instances and
the final cache state. -/
def runCalls {α : Type} (build : String → α) :
    Option α × Nat → List String → List α × (Option α × Nat)
  | st, [] => ([], st)
  | st, p :: ps =>
    let step := create_recommender build st p
    let rest := runCalls build step.2 ps
    (step.1 :: rest.1, rest.2)

theorem runCalls_cached {α : Type} (build : String → α) (i : α) (n : Nat)
    (ps : List String) :
    runCalls build (some i, n) ps = (List.replicate ps.length i, (some i, n)) := by
  induction ps with
  | nil => rfl
  | cons p ps ih =>
    simp [runCalls, create_recommender, singletonCall, ih, List.replicate_succ]

/-- **C10.** Starting from an empty cache, any non-empty sequence of
constructor/factory calls — with arbitrary, possibly different `csv_path`
arguments — runs the constructor body exactly once (on the first call's
argument) and returns that first instance from every call. -/
theorem singleton_unique {α : Type} (build : String → α) (p : String)
    (ps : List String) :
    runCalls build (none, 0) (p :: ps) =
      (List.replicate (ps.length + 1) (build p), (some (build p), 1)) := by
  simp [runCalls, create_recommender, singletonCall, runCalls_cached,
    List.replicate_succ]
